import Mathlib

set_option maxHeartbeats 1000000
set_option maxRecDepth 4000

/-!
Verification development for the resumable execution store and wait-scheduler.

The first part embeds the run-data codec (slot/back-reference flattening of a
possibly cyclic object graph).  The second part embeds the execution store
(`execution.repository.ts`).  The third part models the wait-scheduler
(reconciliation sweep and cancellation).  Theorems about the frozen claims
follow at the end of the file.
-/

/-! ## Run-data codec -/

/-- A field value in the run-data graph: an atomic scalar, or a reference to
another heap object (by heap address).  References are what make the graph
possibly cyclic and reference-sharing. -/
inductive FVal where
  | atom (s : String)
  | ref (a : Nat)
deriving DecidableEq, Repr

/-- A heap object: an association list of named fields. -/
abbrev FObj := List (String × FVal)

/-- An in-memory run-data graph: a heap of objects addressed by index plus a
root address.  Cycles and shared sub-objects are expressed through `FVal.ref`
addresses, so "same object" means "same address". -/
structure Graph where
  heap : List FObj
  root : Nat
deriving DecidableEq, Repr

/-- The addresses referenced by an object's fields. -/
def fieldRefs (o : FObj) : List Nat :=
  o.filterMap (fun kv => match kv.2 with | .ref a => some a | .atom _ => none)

/-- The object stored at address `a` (the empty object when out of range). -/
def objAt (h : List FObj) (a : Nat) : FObj := h.getD a []

/-- A heap is well formed when every reference stays inside the heap. -/
def heapWF (h : List FObj) : Bool :=
  h.all (fun o => (fieldRefs o).all (fun b => decide (b < h.length)))

/-- Modelled from the spec: the codec's encode traversal "assigns each distinct
object a stable integer slot the first time it is visited; subsequent visits
to the same object emit a back-reference to that slot", implemented with an
explicit worklist (the spec's design note forbids structural recursion for
encode).  `ord` accumulates the first-visit order: the slot of an address is
its index in the final `ord`.  Fuel makes the recursion structural; `travFuel`
below always suffices. -/
def codecTraverse (h : List FObj) : Nat → List Nat → List Nat → List Nat
  | 0, _, ord => ord
  | _ + 1, [], ord => ord
  | fuel + 1, a :: stack, ord =>
    if a ∈ ord then codecTraverse h fuel stack ord
    else codecTraverse h fuel (fieldRefs (objAt h a) ++ stack) (ord ++ [a])

/-- Fuel bound for `codecTraverse`: one initial pop plus one pop per reference ever
pushed (each address is expanded at most once). -/
def travFuel (h : List FObj) : Nat :=
  (∑ a ∈ Finset.range h.length, (fieldRefs (objAt h a)).length) + 1

/-- First-visit order of the reachable addresses of a graph, root first. -/
def visitOrder (g : Graph) : List Nat :=
  codecTraverse g.heap (travFuel g.heap) [g.root] []

/-- A field value in the flat, storable representation: an atom, or a
back-reference to an integer slot. -/
inductive EVal where
  | atom (s : String)
  | slot (i : Nat)
deriving DecidableEq, Repr

/-- A flattened object as stored: fields whose references are slot numbers. -/
abbrev EObj := List (String × EVal)

/-- Encode one field value: atoms are copied, a reference becomes the slot
assigned to its target address (its index in the first-visit order). -/
def encVal (ord : List Nat) : FVal → EVal
  | .atom s => .atom s
  | .ref a => .slot (ord.indexOf a)

/-- Encode the object at address `a` against a fixed slot assignment. -/
def encObj (g : Graph) (ord : List Nat) (a : Nat) : EObj :=
  (objAt g.heap a).map (fun kv => (kv.1, encVal ord kv.2))

/-- Modelled from the spec: `encode(graph)` — the flat, storable form: one
encoded object per slot, in first-visit order (so the root is slot 0). -/
def encode (g : Graph) : List EObj :=
  (visitOrder g).map (encObj g (visitOrder g))

/-- Codec failure: "malformed input (dangling slot reference, truncated
stream) fails with a CorruptPayload error". -/
inductive CodecError where
  | corruptPayload
deriving DecidableEq, Repr

/-- Decode one flat field value against `n` materialized shells: a dangling
slot reference (≥ n) is a corrupt payload. -/
def decodeVal (n : Nat) : EVal → Except CodecError FVal
  | .atom s => .ok (.atom s)
  | .slot i => if i < n then .ok (.ref i) else .error .corruptPayload

/-- Patch one shell's fields, resolving back-references to shell addresses. -/
def patchObj (n : Nat) : EObj → Except CodecError FObj
  | [] => .ok []
  | kv :: rest =>
    match decodeVal n kv.2, patchObj n rest with
    | .ok v, .ok r => .ok ((kv.1, v) :: r)
    | .error e, _ => .error e
    | .ok _, .error e => .error e

/-- Patch every shell in slot order. -/
def patchHeap (n : Nat) : List EObj → Except CodecError (List FObj)
  | [] => .ok []
  | o :: rest =>
    match patchObj n o, patchHeap n rest with
    | .ok fo, .ok r => .ok (fo :: r)
    | .error e, _ => .error e
    | .ok _, .error e => .error e

/-- Modelled from the spec: `decode(bytes)` — "first materialize all slots in
traversal order as empty shells, then patch fields in a second pass, resolving
back-references to already-materialized shells".  Here the shells are the slot
indices `0..n-1` of the decoded heap; patching writes each slot's fields, with
every back-reference checked against the shell count.  The decoded root is
slot 0. -/
def decode (l : List EObj) : Except CodecError Graph :=
  match patchHeap l.length l with
  | .ok h => .ok ⟨h, 0⟩
  | .error e => .error e

/-- Total decoding of one flat object, used to describe `decode`'s output when
no back-reference dangles. -/
def decObjTotal (o : EObj) : FObj :=
  o.map (fun kv => (kv.1, match kv.2 with | .atom s => FVal.atom s | .slot i => FVal.ref i))

/-- The heap produced by decoding an encoded graph. -/
def decodedHeap (g : Graph) : List FObj := (encode g).map decObjTotal

/-! ## Execution store data model

Embedded from `src/packages/cli/src/databases/repositories/execution.repository.ts`.
Ids and timestamps are `Nat`; nullable columns are `Option`. -/

/-- Execution status (spec §3): `new, running, success, error, canceled,
crashed, waiting`. -/
inductive ExecStatus where
  | new | running | success | error | canceled | crashed | waiting
deriving DecidableEq, Repr

/-- How the run was triggered (spec §3). -/
inductive ExecMode where
  | manual | trigger | webhook | retry | internal
deriving DecidableEq, Repr

/-- One row of the `ExecutionEntity` table. -/
structure ExecutionEntity where
  id : Nat
  workflowId : Nat
  mode : ExecMode
  status : ExecStatus
  startedAt : Nat
  stoppedAt : Option Nat
  waitTill : Option Nat
  finished : Bool
  retryOf : Option Nat := none
  retrySuccessId : Option Nat := none
deriving DecidableEq, Repr

/-- An immutable snapshot of the workflow definition stored with a run. -/
structure WorkflowData where
  workflowDbId : Option Nat
  name : String
deriving DecidableEq, Repr

/-- One row of the `ExecutionData` table (1:1 with `ExecutionEntity`); `data`
holds the codec-encoded run-data graph (`stringify`/`parse` in the source are
the codec's `encode`/`decode`). -/
structure ExecutionDataRow where
  executionId : Nat
  data : List EObj
  workflowData : WorkflowData
deriving DecidableEq, Repr

/-- One row of the `ExecutionMetadata` table. -/
structure ExecutionMetadataRow where
  executionId : Nat
  key : String
  value : String
deriving DecidableEq, Repr

/-- The durable store: the execution table, its 1:1 data table, and the
metadata table. -/
structure DbState where
  executions : List ExecutionEntity
  executionData : List ExecutionDataRow
  metadata : List ExecutionMetadataRow
deriving DecidableEq, Repr

/-- Invocations of external collaborators recorded by an operation, used to
observe the binary-payload cleanup hook. -/
inductive Event where
  | binaryCleanup (executionId : Nat)
deriving DecidableEq, Repr

/-- Store-layer errors (spec §7), plus the runtime `TypeError` a JavaScript
property access on `undefined` raises. -/
inductive StoreError where
  | notFound
  | invalidRequest
  | persistenceError
  | dataIntegrityError
  | corruptPayload
  | typeError
  | binaryCleanupFailure
deriving DecidableEq, Repr

/-! ## Execution store operations -/

/-- Projection options of `findSingleExecution` (`includeData`,
`includeWorkflowData`, `unflattenData`). -/
structure FindOptions where
  includeData : Bool := false
  includeWorkflowData : Bool := false
  unflattenData : Bool := false
deriving DecidableEq, Repr

/-- The shape `findSingleExecution` returns when it finds a row: the record
together with the data fields, either still flattened (`IExecutionFlattedDb`)
or decoded (`IExecutionResponse`). -/
inductive FoundExecution where
  | flattened (record : ExecutionEntity) (data : List EObj) (workflowData : WorkflowData)
  | unflattened (record : ExecutionEntity) (data : Graph) (workflowData : WorkflowData)
deriving DecidableEq, Repr

/-- Embeds `findSingleExecution` (repository lines 148-188).  `findOne` loads
the `executionData` relation exactly when `includeData || includeWorkflowData`
(lines 163-165); an unknown id returns `undefined` (lines 169-171).  The final
return (lines 183-187) reads `execution.executionData.data` unconditionally:
when the relation was not loaded that property is `undefined` in JavaScript
and the access raises a `TypeError`, modelled as `StoreError.typeError`.  The
`unflattenData` path re-runs the codec's `parse`; a decode failure is the
spec's `CorruptPayload`. -/
def findSingleExecution (db : DbState) (id : Nat) (opts : FindOptions) :
    Except StoreError (Option FoundExecution) :=
  match db.executions.find? (fun e => e.id == id) with
  | none => .ok none
  | some e =>
    let loadedRelation : Option ExecutionDataRow :=
      if opts.includeData || opts.includeWorkflowData then
        db.executionData.find? (fun d => d.executionId == id)
      else none
    match loadedRelation with
    | none => .error .typeError
    | some d =>
      if opts.includeData && opts.unflattenData then
        match decode d.data with
        | .ok g => .ok (some (.unflattened e g d.workflowData))
        | .error _ => .error .corruptPayload
      else .ok (some (.flattened e d.data d.workflowData))

/-- Map a fallible row conversion over a result set; the first failing row
aborts the whole call, as a thrown exception inside the source's `map`
does. -/
def mapExcept {α β ε : Type} (f : α → Except ε β) : List α → Except ε (List β)
  | [] => .ok []
  | a :: rest =>
    match f a with
    | .error e => .error e
    | .ok b =>
      match mapExcept f rest with
      | .error e => .error e
      | .ok bs => .ok (b :: bs)

/-- One row of `findMultipleExecutions`' flattening map (repository lines
120-127): it reads `execution.executionData.data` whether or not the relation
was loaded; when it was not — or the row is missing — that property access on
`undefined` is a JavaScript `TypeError`. -/
def flattenRow (db : DbState) (relLoaded : Bool) (e : ExecutionEntity) :
    Except StoreError FoundExecution :=
  match (if relLoaded then db.executionData.find? (fun d => d.executionId == e.id)
         else none) with
  | none => .error .typeError
  | some d => .ok (.flattened e d.data d.workflowData)

/-- One row of `findMultipleExecutions`' unflattening map (repository lines
110-117); the relation is loaded here (`includeData` is set), a missing row is
still the `undefined` dereference, and a `parse` failure is the spec's
`CorruptPayload`. -/
def unflattenRow (db : DbState) (e : ExecutionEntity) :
    Except StoreError FoundExecution :=
  match db.executionData.find? (fun d => d.executionId == e.id) with
  | none => .error .typeError
  | some d =>
    match decode d.data with
    | .ok g => .ok (.unflattened e g d.workflowData)
    | .error _ => .error .corruptPayload

/-- Embeds `findMultipleExecutions` (repository lines 76-128).  The
`executionData` relation is loaded exactly when
`includeData || includeWorkflowData` (lines 100-105); the fetched rows are
then mapped one by one — unflattening when `includeData && unflattenData`
(lines 109-118), otherwise flattening (lines 120-127), which dereferences the
relation unconditionally.  `whereFilter` stands for the `FindManyOptions`
where-clause; the `order` and `select` clauses are not modelled, as no claim
depends on result order or column projection. -/
def findMultipleExecutions (db : DbState) (whereFilter : ExecutionEntity → Bool)
    (opts : FindOptions) : Except StoreError (List FoundExecution) :=
  let relLoaded := opts.includeData || opts.includeWorkflowData
  let executions := db.executions.filter whereFilter
  if opts.includeData && opts.unflattenData then
    mapExcept (unflattenRow db) executions
  else
    mapExcept (flattenRow db relLoaded) executions

/-- Input of `createNewExecution` (`IExecutionDb`): everything but the
generated id, with the run-data graph still in memory. -/
structure ExecutionInput where
  workflowId : Nat
  mode : ExecMode
  status : ExecStatus
  startedAt : Nat
  stoppedAt : Option Nat
  waitTill : Option Nat
  finished : Bool
  data : Graph
  workflowData : WorkflowData
deriving DecidableEq, Repr

/-- The id the underlying store generates for a newly saved execution row. -/
def nextId (db : DbState) : Nat :=
  db.executions.foldl (fun m e => max m (e.id + 1)) 1

/-- Embeds `createNewExecution` (repository lines 190-203).  The source issues
two separate, non-transactional writes: `this.save(rest)` for the execution
row, then `executionDataRepository.save(...)` for the data row (re-running the
codec's `stringify` on `data`).  `dataSaveFails` injects a failure of the
second write by the underlying store; because there is no transaction, the
first write is already durable when that happens. -/
def createNewExecution (db : DbState) (exec : ExecutionInput) (dataSaveFails : Bool) :
    DbState × Except StoreError Nat :=
  let newId := nextId db
  let row : ExecutionEntity :=
    { id := newId, workflowId := exec.workflowId, mode := exec.mode,
      status := exec.status, startedAt := exec.startedAt,
      stoppedAt := exec.stoppedAt, waitTill := exec.waitTill,
      finished := exec.finished }
  let db1 : DbState := { db with executions := db.executions ++ [row] }
  if dataSaveFails then (db1, .error .persistenceError)
  else
    ({ db1 with executionData :=
        db1.executionData ++ [⟨newId, encode exec.data, exec.workflowData⟩] },
     .ok newId)

/-- A partial update (`Partial<IExecutionResponse>`): `none` means the field
is absent from the patch; for nullable columns the inner `Option` is the new
value. -/
structure UpdatePatch where
  status : Option ExecStatus := none
  waitTill : Option (Option Nat) := none
  stoppedAt : Option (Option Nat) := none
  finished : Option Bool := none
  data : Option Graph := none
  workflowData : Option WorkflowData := none
deriving DecidableEq, Repr

/-- Apply the non-data fields of a patch to an execution row. -/
def applyPatch (p : UpdatePatch) (e : ExecutionEntity) : ExecutionEntity :=
  { e with
    status := p.status.getD e.status,
    waitTill := p.waitTill.getD e.waitTill,
    stoppedAt := p.stoppedAt.getD e.stoppedAt,
    finished := p.finished.getD e.finished }

/-- `UPDATE ... WHERE p`: rewrite every matching row, leave the rest.  A
`WHERE` matching no row affects zero rows and raises nothing. -/
def updateWhere (l : List α) (p : α → Bool) (f : α → α) : List α :=
  l.map (fun r => if p r then f r else r)

/-- Embeds `updateExistingExecution` (repository lines 205-226).  Inside one
transaction: when the patch carries execution-level fields, `UPDATE` the
execution row by id (lines 209-211); when it carries `data`/`workflowData`,
`UPDATE` the data row by `executionId`, re-encoding `data` (lines 213-224).
TypeORM's `update` never raises on an unmatched id, so the function always
returns `.ok`; the `Except` records that no `NotFound` path exists. -/
def updateExistingExecution (db : DbState) (executionId : Nat) (p : UpdatePatch) :
    Except StoreError DbState :=
  let hasInfo := p.status.isSome || p.waitTill.isSome || p.stoppedAt.isSome || p.finished.isSome
  let patchDataRow : ExecutionDataRow → ExecutionDataRow := fun d =>
    { d with
      data := (match p.data with | some g => encode g | none => d.data),
      workflowData := p.workflowData.getD d.workflowData }
  let execs1 := updateWhere db.executions (fun e => e.id == executionId) (applyPatch p)
  let db1 : DbState := if hasInfo then { db with executions := execs1 } else db
  let data2 := updateWhere db1.executionData (fun d => d.executionId == executionId) patchDataRow
  let db2 : DbState :=
    if p.data.isSome || p.workflowData.isSome then { db1 with executionData := data2 }
    else db1
  .ok db2

/-- Embeds `deleteExecution` (repository lines 228-232).  The source awaits
`BinaryDataManager...deleteBinaryDataByExecutionId(executionId)` with no
`catch` (its own TODO asks whether one should be added), so a cleanup failure
propagates before `this.delete` runs and no row is removed.  `cleanupFails`
lists the ids whose external cleanup rejects.  On success the row delete
cascades to the data row and metadata entries (cascade modelled from the spec:
the entity definitions are not under `src/`). -/
def deleteExecution (db : DbState) (cleanupFails : List Nat) (executionId : Nat) :
    DbState × List Event × Option StoreError :=
  if cleanupFails.contains executionId then
    (db, [], some .binaryCleanupFailure)
  else
    ({ executions := db.executions.filter (fun e => e.id != executionId),
       executionData := db.executionData.filter (fun d => d.executionId != executionId),
       metadata := db.metadata.filter (fun m => m.executionId != executionId) },
     [.binaryCleanup executionId], none)

/-- One metadata equality condition of the advanced filter. -/
structure MetadataFilter where
  key : String
  value : String
deriving DecidableEq, Repr

/-- `IGetExecutionsQueryFilter` as consumed by `parseFiltersToQueryBuilder`. -/
structure ExecutionsQueryFilter where
  status : Option (List ExecStatus) := none
  finished : Option Bool := none
  metadata : Option (List MetadataFilter) := none
  startedAfter : Option Nat := none
  startedBefore : Option Nat := none
  workflowId : Option Nat := none
deriving DecidableEq, Repr

/-- Embeds `parseFiltersToQueryBuilder` (lines 28-65) as a row predicate.
`finished: false` is falsy in JavaScript, so that filter only applies when the
value is `true`.  The metadata conditions join a single `md` alias, so all
key/value pairs must hold of one metadata row; the filter is gated by the
`advancedEnabled` feature flag (`isAdvancedExecutionFiltersEnabled`, not under
`src/`). -/
def matchesFilters (advancedEnabled : Bool) (mdRows : List ExecutionMetadataRow)
    (filters : Option ExecutionsQueryFilter) (e : ExecutionEntity) : Bool :=
  match filters with
  | none => true
  | some f =>
    (match f.status with | some sts => sts.contains e.status | none => true) &&
    (match f.finished with | some true => e.finished | _ => true) &&
    (match f.metadata with
     | some mds =>
       if advancedEnabled then
         mdRows.any (fun row =>
           row.executionId == e.id &&
           mds.all (fun md => row.key == md.key && row.value == md.value))
       else true
     | none => true) &&
    (match f.startedAfter with | some t => decide (t ≤ e.startedAt) | none => true) &&
    (match f.startedBefore with | some t => decide (e.startedAt ≤ t) | none => true) &&
    (match f.workflowId with | some w => e.workflowId == w | none => true)

/-- The `deleteConditions` argument of `deleteExecutions`. -/
structure DeleteConditions where
  deleteBefore : Option Nat := none
  ids : Option (List Nat) := none
deriving DecidableEq, Repr

/-- Embeds `deleteExecutions` (repository lines 288-337).  With neither
`deleteBefore` nor `ids` it throws (lines 296-298, the spec's
`InvalidRequest`).  Otherwise it selects the ids to delete — restricted to
`accessibleWorkflowIds`, by cutoff date plus filters or by explicit id list
(lines 300-314) — but the whole deletion body, including the per-id binary
cleanup and the batched row delete, is commented out in the source (lines
316-336): the query result is discarded, no row is removed and no cleanup is
invoked. -/
def deleteExecutions (db : DbState) (advancedEnabled : Bool)
    (filters : Option ExecutionsQueryFilter) (accessibleWorkflowIds : List Nat)
    (dc : DeleteConditions) : Except StoreError (DbState × List Event) :=
  if dc.deleteBefore.isNone && dc.ids.isNone then .error .invalidRequest
  else
    let base := db.executions.filter (fun e => accessibleWorkflowIds.contains e.workflowId)
    let _queried : List ExecutionEntity :=
      match dc.deleteBefore, dc.ids with
      | some cutoff, _ =>
        (base.filter (fun e => decide (e.startedAt ≤ cutoff))).filter
          (matchesFilters advancedEnabled db.metadata filters)
      | none, some ids => base.filter (fun e => ids.contains e.id)
      | none, none => []
    .ok (db, [])

/-! ## Wait-scheduler (`WaitTracker`)

Embedded from the `WaitTracker` class, the third document inside
`src/packages/editor-ui/src/stores/externalSecrets.ee.store.ts` (lines
567-757).  The local timer registry `waitingExecutions` is modelled as a list
of `(executionId, delay)` pairs. -/

/-- The fixed reconciliation interval: 60000 ms (constructor, line 610). -/
def sweepIntervalMs : Nat := 60000

/-- The sweep lookahead: 70000 ms (lines 618-628). -/
def sweepLookaheadMs : Nat := 70000

/-- Embeds the where-clause of `WaitTracker.getWaitingExecutions` (lines
619-628): `waitTill <= now + 70000 AND status != 'crashed'`.  In SQL a NULL
`waitTill` never satisfies the comparison, so such rows are excluded.  Note
there is no `status == waiting` condition. -/
def waitTrackerWhere (now : Nat) (e : ExecutionEntity) : Bool :=
  (match e.waitTill with
   | some w => decide (w ≤ now + sweepLookaheadMs)
   | none => false) &&
  !(e.status == .crashed)

/-- The body of the arming loop (lines 652-663): insert a timer with delay
`waitTill - now` for each fetched id not already in the mapping.  `setTimeout`
treats a negative delay as immediate, which truncated `Nat` subtraction
models. -/
def armRow (now : Nat) (acc : List (Nat × Nat)) (e : ExecutionEntity) : List (Nat × Nat) :=
  if acc.any (fun t => t.1 == e.id) then acc
  else acc ++ [(e.id, e.waitTill.getD 0 - now)]

/-- Embeds `WaitTracker.getWaitingExecutions` (lines 616-664).  The rows are
fetched through `findMultipleExecutions` with no options at all (line 639), so
the flattening map dereferences the unloaded `executionData` relation and the
fetch raises a `TypeError` as soon as the query result is non-empty; the
arming loop (lines 652-663) is then only reachable with an empty result.  On
an error the rejected promise leaves the local mapping unchanged. -/
def getWaitingExecutions (db : DbState) (now : Nat) (waiting : List (Nat × Nat)) :
    Except StoreError (List (Nat × Nat)) :=
  match findMultipleExecutions db (waitTrackerWhere now) {} with
  | .error err => .error err
  | .ok found =>
    .ok (found.foldl
      (fun acc fe =>
        match fe with
        | .flattened e _ _ => armRow now acc e
        | .unflattened e _ _ => armRow now acc e)
      waiting)

/-- The `IExecutionsStopData` summary `stopExecution` returns (lines 705-711):
mode, startedAt, stoppedAt, finished, status. -/
structure StopSummary where
  mode : ExecMode
  startedAt : Nat
  stoppedAt : Option Nat
  finished : Bool
  status : ExecStatus
deriving DecidableEq, Repr

/-- Embeds lines 686-692: the cancellation error written into the in-memory
run-data graph (`execution.data.resultData.error = ...`), modelled as an
`error` field on the graph's root object. -/
def attachCancelError (g : Graph) : Graph :=
  let patched := objAt g.heap g.root ++ [("error", FVal.atom "Execution canceled")]
  { g with heap := g.heap.set g.root patched }

/-- The record as rewritten by cancellation (lines 694-696): `stoppedAt = now`,
`waitTill = null`, `status = canceled`, all other fields unchanged. -/
def cancelRowOf (now : Nat) (e : ExecutionEntity) : ExecutionEntity :=
  { e with status := .canceled, waitTill := none, stoppedAt := some now }

/-- Embeds `WaitTracker.stopExecution` (lines 666-712).  Any armed local timer
is disarmed first (lines 667-672).  The record is then loaded together with
its data row, unflattened (lines 675-679), so a missing or undecodable data
row fails with `TypeError`/`CorruptPayload` BEFORE the `waitTill` check; an
absent record or a null `waitTill` fails with the could-not-be-found error
(lines 681-683, the spec's `NotFound`).  Otherwise the cancellation error is
attached to the in-memory graph and the in-memory record gets
`stoppedAt = now`, `waitTill = null`, `status = canceled` (lines 686-696).
Persistence is one `Db.collections.Execution.update` of the flattened record
(lines 698-703): the flattened `data`/`workflowData` fields have no columns on
the Execution table, so only the record's own fields are written and the
`ExecutionData` row is untouched.  The summary is returned (lines 705-711). -/
def stopExecutionWT (db : DbState) (timers : List (Nat × Nat)) (id now : Nat) :
    (DbState × List (Nat × Nat)) × Except StoreError StopSummary :=
  let timers' := timers.filter (fun t => t.1 != id)
  match findSingleExecution db id
      { includeData := true, includeWorkflowData := true, unflattenData := true } with
  | .error err => ((db, timers'), .error err)
  | .ok none => ((db, timers'), .error .notFound)
  | .ok (some (.flattened _ _ _)) =>
    -- unreachable: `unflattenData` is set, so a successful load is unflattened
    ((db, timers'), .error .typeError)
  | .ok (some (.unflattened e g _)) =>
    match e.waitTill with
    | none => ((db, timers'), .error .notFound)
    | some _ =>
      let _flattenedData := encode (attachCancelError g)
      let newExecs := updateWhere db.executions (fun x => x.id == id)
        (fun _ => cancelRowOf now e)
      let db' : DbState := { db with executions := newExecs }
      ((db', timers'),
       .ok { mode := e.mode, startedAt := e.startedAt, stoppedAt := some now,
             finished := e.finished, status := .canceled })

/-! ## Shared helper lemmas and concrete stores -/

/-- Decidable equality for `Except`, so results can be evaluated on concrete
inputs. -/
instance instDecEqExcept {ε α : Type} [DecidableEq ε] [DecidableEq α] :
    DecidableEq (Except ε α) := fun x y =>
  match x, y with
  | .ok a, .ok b =>
    if h : a = b then isTrue (by rw [h]) else
      isFalse (by intro hc; injection hc; contradiction)
  | .ok _, .error _ => isFalse (by intro hc; exact Except.noConfusion hc)
  | .error _, .ok _ => isFalse (by intro hc; exact Except.noConfusion hc)
  | .error a, .error b =>
    if h : a = b then isTrue (by rw [h]) else
      isFalse (by intro hc; injection hc; contradiction)

theorem updateWhere_eq_self {α : Type} {l : List α} {p : α → Bool} {f : α → α}
    (h : ∀ r ∈ l, p r = false) : updateWhere l p f = l := by
  induction l with
  | nil => rfl
  | cons a t ih =>
    have ha := h a (by simp)
    have ht : ∀ r ∈ t, p r = false := fun r hr => h r (by simp [hr])
    simp [updateWhere] at ih ⊢
    exact ⟨by simp [ha], ih ht⟩

theorem find?_updateWhere {α : Type} (l : List α) (p : α → Bool) (f : α → α)
    (hf : ∀ r, p r = true → p (f r) = true) :
    (updateWhere l p f).find? p = (l.find? p).map f := by
  induction l with
  | nil => rfl
  | cons a t ih =>
    cases ha : p a with
    | true =>
      rw [show updateWhere (a :: t) p f = f a :: updateWhere t p f from by
        simp [updateWhere, ha]]
      rw [List.find?_cons_of_pos _ (hf a ha), List.find?_cons_of_pos _ ha]
      rfl
    | false =>
      rw [show updateWhere (a :: t) p f = a :: updateWhere t p f from by
        simp [updateWhere, ha]]
      rw [List.find?_cons_of_neg _ (by simp [ha]), List.find?_cons_of_neg _ (by simp [ha])]
      exact ih

theorem mem_updateWhere_of_neg {α : Type} {l : List α} {p : α → Bool} {f : α → α}
    {r : α} (hr : r ∈ l) (hp : p r = false) : r ∈ updateWhere l p f := by
  have := List.mem_map_of_mem (fun x => if p x then f x else x) hr
  simpa [updateWhere, hp] using this

/-- The cyclic, reference-sharing example: object A (`.next = B`) and B
(`.next = A`) form a cycle, and both share a reference to a third object. -/
def cycleGraph : Graph :=
  ⟨[[("next", .ref 1), ("shared", .ref 2)],
    [("next", .ref 0), ("shared", .ref 2)],
    [("v", .atom "x")]], 0⟩

/-- A one-object run-data graph. -/
def smallGraph : Graph := ⟨[[("v", .atom "x")]], 0⟩

/-- A workflow snapshot. -/
def wfSnapshot : WorkflowData := ⟨some 10, "wf"⟩

/-- A waiting execution: id 1, workflow 10, resume due at time 50. -/
def execWaiting : ExecutionEntity :=
  { id := 1, workflowId := 10, mode := .manual, status := .waiting,
    startedAt := 5, stoppedAt := none, waitTill := some 50, finished := false }

/-- A store holding exactly execution 1 with its 1:1 data row and one metadata
entry. -/
def dbOne : DbState :=
  { executions := [execWaiting],
    executionData := [⟨1, encode smallGraph, wfSnapshot⟩],
    metadata := [⟨1, "k", "v"⟩] }

/-- A well-formed `createExecution` input. -/
def sampleInput : ExecutionInput :=
  { workflowId := 10, mode := .manual, status := .running, startedAt := 7,
    stoppedAt := none, waitTill := none, finished := false,
    data := smallGraph, workflowData := wfSnapshot }

/-! ## Claim C1 -/

/-- Claim C1: the claim says `deleteExecutions` with `ids = [x]` deletes the
record `x`, its data record and metadata, and invokes binary cleanup for `x`.
The code's entire deletion body (per-id binary cleanup and batched row delete)
is commented out, so the call succeeds while deleting nothing and invoking no
cleanup: in a store holding execution 1 (workflow 10, within the access
scope), the call returns the store unchanged and produces no cleanup event,
and record 1 with its data row and metadata entry are all still present. -/
theorem c1_delete_executions_deletes_nothing :
    deleteExecutions dbOne false none [10] { ids := some [1] } = .ok (dbOne, []) ∧
    dbOne.executions.any (fun e => e.id == 1) = true ∧
    dbOne.executionData.any (fun d => d.executionId == 1) = true ∧
    dbOne.metadata.any (fun m => m.executionId == 1) = true :=
  ⟨rfl, rfl, rfl, rfl⟩

/-! ## Claim C2 -/

/-- Claim C2 (counterexample): `createNewExecution` issues two separate,
non-transactional writes, so it is not atomic: starting from the empty store,
when the data-row write fails the call surfaces `PersistenceError` while the
new execution row (id 1) is durable with no data row — an observable state
with an execution record lacking its data record, contradicting the claim
that either both rows exist or neither does. -/
theorem c2_create_not_atomic_counterexample :
    ((createNewExecution ⟨[], [], []⟩ sampleInput true).1.executions.any
        (fun e => e.id == 1)) = true ∧
    ((createNewExecution ⟨[], [], []⟩ sampleInput true).1.executionData.any
        (fun d => d.executionId == 1)) = false ∧
    (createNewExecution ⟨[], [], []⟩ sampleInput true).2 = .error StoreError.persistenceError :=
  ⟨rfl, rfl, rfl⟩

/-- Claim C2 (amended): `createNewExecution` inserts the execution row and its
data row in two sequential non-transactional writes: the execution row exists
afterwards in every case; when the data write succeeds the 1:1 data row (with
the encoded graph) exists as well and the new id is returned; when the data
write fails, `PersistenceError` is surfaced and the execution record remains
with no data record. -/
theorem createNewExecution_executions (db : DbState) (exec : ExecutionInput) (b : Bool) :
    (createNewExecution db exec b).1.executions =
      db.executions ++
        [{ id := nextId db, workflowId := exec.workflowId, mode := exec.mode,
           status := exec.status, startedAt := exec.startedAt,
           stoppedAt := exec.stoppedAt, waitTill := exec.waitTill,
           finished := exec.finished }] := by
  cases b <;> rfl

theorem createNewExecution_data_ok (db : DbState) (exec : ExecutionInput) :
    (createNewExecution db exec false).1.executionData =
      db.executionData ++ [⟨nextId db, encode exec.data, exec.workflowData⟩] := rfl

theorem createNewExecution_data_fail (db : DbState) (exec : ExecutionInput) :
    (createNewExecution db exec true).1.executionData = db.executionData := rfl

theorem c2_create_two_sequential_writes (db : DbState) (exec : ExecutionInput)
    (dataSaveFails : Bool)
    (hfresh : ∀ d ∈ db.executionData, d.executionId ≠ nextId db) :
    (∃ e ∈ (createNewExecution db exec dataSaveFails).1.executions, e.id = nextId db) ∧
    (dataSaveFails = false →
      (createNewExecution db exec dataSaveFails).2 = .ok (nextId db) ∧
      ∃ d ∈ (createNewExecution db exec dataSaveFails).1.executionData,
        d.executionId = nextId db ∧ d.data = encode exec.data) ∧
    (dataSaveFails = true →
      (createNewExecution db exec dataSaveFails).2 = .error .persistenceError ∧
      ∀ d ∈ (createNewExecution db exec dataSaveFails).1.executionData,
        d.executionId ≠ nextId db) := by
  refine ⟨?_, ?_, ?_⟩
  · refine ⟨{ id := nextId db, workflowId := exec.workflowId, mode := exec.mode,
              status := exec.status, startedAt := exec.startedAt,
              stoppedAt := exec.stoppedAt, waitTill := exec.waitTill,
              finished := exec.finished }, ?_, rfl⟩
    rw [createNewExecution_executions]
    simp
  · intro hb
    subst hb
    refine ⟨rfl, ⟨nextId db, encode exec.data, exec.workflowData⟩, ?_, rfl, rfl⟩
    rw [createNewExecution_data_ok]
    simp
  · intro hb
    subst hb
    refine ⟨rfl, ?_⟩
    intro d hd
    rw [createNewExecution_data_fail] at hd
    exact hfresh d hd

/-- Claim C2 (witness): the amended theorem applied to the empty store. -/
theorem c2_create_witness :
    ((⟨[], [], []⟩ : DbState).executionData.all
        (fun d => d.executionId != nextId ⟨[], [], []⟩)) = true ∧
    (createNewExecution ⟨[], [], []⟩ sampleInput false).2 = .ok (nextId ⟨[], [], []⟩) := by
  refine ⟨rfl, ?_⟩
  exact ((c2_create_two_sequential_writes ⟨[], [], []⟩ sampleInput false
    (by intro d hd; cases hd)).2.1 rfl).1

/-! ## Claim C6 -/

/-- Claim C6: the claim says `findSingleExecution` without
`includeData`/`includeWorkflowData` succeeds and returns the record without
the large fields.  In the code the final return unconditionally reads
`execution.executionData.data`, but `findOne` loads the `executionData`
relation only when one of those options is set, so the default-projection call
on an existing id dereferences `undefined` and fails with a `TypeError`
instead of succeeding.  The unknown-id path (`not found`) and the
`includeData` path (fields fetched when requested) behave as claimed. -/
theorem c6_projection_read_type_error :
    findSingleExecution dbOne 1 {} = .error StoreError.typeError ∧
    findSingleExecution dbOne 99 {} = .ok none ∧
    findSingleExecution dbOne 1 { includeData := true, unflattenData := true } =
      .ok (some (.unflattened execWaiting smallGraph wfSnapshot)) :=
  ⟨rfl, rfl, rfl⟩

/-! ## Claim C7 -/

/-- Claim C7 (counterexample): updating the nonexistent id 5 does not fail
with `NotFound`: TypeORM's `update` affects zero rows and raises nothing, so
the call returns successfully with the store unchanged. -/
theorem c7_update_unknown_counterexample :
    updateExistingExecution dbOne 5 { status := some ExecStatus.canceled } = .ok dbOne ∧
    updateExistingExecution dbOne 5 { status := some ExecStatus.canceled } ≠
      .error StoreError.notFound := by
  refine ⟨rfl, ?_⟩
  decide

/-- Claim C7 (amended): for every id not present in the store (no execution
row and no data row carries it), `updateExistingExecution` changes no stored
state and completes successfully — a silent no-op, not a `NotFound`
failure. -/
theorem c7_update_unknown_is_silent_noop (db : DbState) (id : Nat) (p : UpdatePatch)
    (hexec : ∀ e ∈ db.executions, e.id ≠ id)
    (hdata : ∀ d ∈ db.executionData, d.executionId ≠ id) :
    updateExistingExecution db id p = .ok db := by
  obtain ⟨execs, datas, mds⟩ := db
  have h1 : updateWhere execs (fun e => e.id == id) (applyPatch p) = execs :=
    updateWhere_eq_self (fun r hr => by simp [hexec r hr])
  have h2 : ∀ f, updateWhere datas (fun d => d.executionId == id) f = datas :=
    fun f => updateWhere_eq_self (fun r hr => by simp [hdata r hr])
  simp only [updateExistingExecution, h1, ite_self]
  rw [h2]
  simp only [ite_self]

/-- Claim C7 (witness): the amended theorem applied to `dbOne` and the
unknown id 5. -/
theorem c7_update_unknown_witness :
    (dbOne.executions.all (fun e => e.id != 5)) = true ∧
    updateExistingExecution dbOne 5 { finished := some true } = .ok dbOne :=
  ⟨rfl, c7_update_unknown_is_silent_noop dbOne 5 _ (by decide) (by decide)⟩

/-! ## Claim C8 -/

/-- Claim C8 (counterexample): a failing binary cleanup is not best-effort in
the code — the awaited call has no `catch`, so the failure propagates and the
row deletion never runs: with cleanup failing for id 1, the store still holds
execution 1 afterwards. -/
theorem c8_cleanup_failure_aborts_delete :
    deleteExecution dbOne [1] 1 = (dbOne, [], some StoreError.binaryCleanupFailure) ∧
    dbOne.executions.any (fun e => e.id == 1) = true :=
  ⟨rfl, rfl⟩

/-- Claim C8 (amended): `deleteExecution` first requests external
binary-payload cleanup for the id and then deletes the execution, data and
metadata rows; but the cleanup is not best-effort: when it fails, the error
propagates and no row is deleted; when it succeeds, the cleanup is invoked
and exactly the rows of that id are removed. -/
theorem c8_delete_execution_behavior (db : DbState) (cleanupFails : List Nat) (id : Nat) :
    (id ∈ cleanupFails →
      deleteExecution db cleanupFails id = (db, [], some .binaryCleanupFailure)) ∧
    (id ∉ cleanupFails →
      (deleteExecution db cleanupFails id).2.1 = [.binaryCleanup id] ∧
      (deleteExecution db cleanupFails id).2.2 = none ∧
      (∀ e ∈ (deleteExecution db cleanupFails id).1.executions, e.id ≠ id) ∧
      (∀ e ∈ db.executions, e.id ≠ id → e ∈ (deleteExecution db cleanupFails id).1.executions) ∧
      (∀ d ∈ (deleteExecution db cleanupFails id).1.executionData, d.executionId ≠ id) ∧
      (∀ d ∈ db.executionData, d.executionId ≠ id →
        d ∈ (deleteExecution db cleanupFails id).1.executionData) ∧
      (∀ m ∈ (deleteExecution db cleanupFails id).1.metadata, m.executionId ≠ id) ∧
      (∀ m ∈ db.metadata, m.executionId ≠ id →
        m ∈ (deleteExecution db cleanupFails id).1.metadata)) := by
  constructor
  · intro h
    have hc : cleanupFails.contains id = true := List.elem_iff.2 h
    unfold deleteExecution
    rw [hc]
    rfl
  · intro h
    have hc : cleanupFails.contains id = false := by
      cases hcc : cleanupFails.contains id
      · rfl
      · exact absurd (List.elem_iff.1 hcc) h
    have hd : deleteExecution db cleanupFails id =
        ({ executions := db.executions.filter (fun e => e.id != id),
           executionData := db.executionData.filter (fun d => d.executionId != id),
           metadata := db.metadata.filter (fun m => m.executionId != id) },
         [.binaryCleanup id], none) := by
      unfold deleteExecution
      rw [hc]
      rfl
    rw [hd]
    refine ⟨rfl, rfl, ?_, ?_, ?_, ?_, ?_, ?_⟩
    · intro e he
      simpa using (List.mem_filter.1 he).2
    · intro e he hne
      exact List.mem_filter.2 ⟨he, by simpa using hne⟩
    · intro d hd
      simpa using (List.mem_filter.1 hd).2
    · intro d hd hne
      exact List.mem_filter.2 ⟨hd, by simpa using hne⟩
    · intro m hm
      simpa using (List.mem_filter.1 hm).2
    · intro m hm hne
      exact List.mem_filter.2 ⟨hm, by simpa using hne⟩

/-- Claim C8 (witness): the amended theorem applied to `dbOne` with cleanup
succeeding for id 1: the cleanup event is produced and no error is raised. -/
theorem c8_delete_execution_witness :
    (1 ∉ ([2] : List Nat)) ∧
    (deleteExecution dbOne [2] 1).2.1 = [.binaryCleanup 1] ∧
    (deleteExecution dbOne [2] 1).2.2 = none := by
  refine ⟨by decide, ?_, ?_⟩
  · exact ((c8_delete_execution_behavior dbOne [2] 1).2 (by decide)).1
  · exact ((c8_delete_execution_behavior dbOne [2] 1).2 (by decide)).2.1

/-! ## Claim C3 -/

/-- A non-waiting execution with a pending `waitTill`, which nevertheless
passes the sweep's where-clause. -/
def execRunningWithWait : ExecutionEntity :=
  { id := 2, workflowId := 10, mode := .manual, status := .running,
    startedAt := 5, stoppedAt := none, waitTill := some 10, finished := false }

/-- Claim C3: the claim says each sweep queries exactly the executions with
`status == waiting` and `waitTill ≤ now + lookahead` (excluding `crashed`) and
arms a timer, with no duplicates, for each result not already in the mapping.
The code diverges twice.  First, the query (lines 619-628) has no
`status == waiting` condition: it filters on a non-null
`waitTill ≤ now + 70000` and `status != crashed`, so a `running` execution
with a pending `waitTill` matches it.  Second, the sweep fetches through
`findMultipleExecutions` with no options (line 639), whose flattening map
dereferences the unloaded `executionData` relation: on the store holding the
single due waiting execution 1 the sweep fails with a `TypeError` and arms
nothing — the arming loop (lines 652-663) is unreachable for any non-empty
result.  The 70000 ms lookahead does exceed the 60000 ms interval as
claimed. -/
theorem c3_sweep_type_error :
    getWaitingExecutions dbOne 0 [] = .error StoreError.typeError ∧
    waitTrackerWhere 0 execRunningWithWait = true ∧
    execRunningWithWait.status ≠ ExecStatus.waiting ∧
    sweepIntervalMs < sweepLookaheadMs := by
  refine ⟨rfl, rfl, by decide, by decide⟩

/-! ## Claim C4 -/

theorem findSingle_unflat_none (db : DbState) (id : Nat)
    (he : db.executions.find? (fun x => x.id == id) = none) :
    findSingleExecution db id
        { includeData := true, includeWorkflowData := true, unflattenData := true } =
      .ok none := by
  simp [findSingleExecution, he]

theorem findSingle_unflat_nodata (db : DbState) (id : Nat) (e : ExecutionEntity)
    (he : db.executions.find? (fun x => x.id == id) = some e)
    (hd : db.executionData.find? (fun x => x.executionId == id) = none) :
    findSingleExecution db id
        { includeData := true, includeWorkflowData := true, unflattenData := true } =
      .error .typeError := by
  simp [findSingleExecution, he, hd]

theorem findSingle_unflat_ok (db : DbState) (id : Nat) (e : ExecutionEntity)
    (d : ExecutionDataRow) (g : Graph)
    (he : db.executions.find? (fun x => x.id == id) = some e)
    (hd : db.executionData.find? (fun x => x.executionId == id) = some d)
    (hg : decode d.data = .ok g) :
    findSingleExecution db id
        { includeData := true, includeWorkflowData := true, unflattenData := true } =
      .ok (some (.unflattened e g d.workflowData)) := by
  simp [findSingleExecution, he, hd, hg]

/-- A record with a null `waitTill` and no data row. -/
def execNoWaitNoData : ExecutionEntity :=
  { id := 3, workflowId := 10, mode := .manual, status := .running,
    startedAt := 5, stoppedAt := none, waitTill := none, finished := false }

/-- A store holding only that record, with an empty data table. -/
def dbNoData : DbState :=
  { executions := [execNoWaitNoData], executionData := [], metadata := [] }

/-- Claim C4 (counterexample): `stopExecution` loads and unflattens the data
row BEFORE the `waitTill` check (lines 675-683), so on a stored record with a
null `waitTill` whose data row is missing the call fails with a `TypeError`,
not `NotFound` — though the store is indeed left unchanged. -/
theorem c4_stop_counterexample :
    (stopExecutionWT dbNoData [] 3 20).2 = .error StoreError.typeError ∧
    (stopExecutionWT dbNoData [] 3 20).2 ≠ .error StoreError.notFound ∧
    (stopExecutionWT dbNoData [] 3 20).1.1 = dbNoData := by
  refine ⟨rfl, by decide, rfl⟩

/-- Claim C4 (amended): `stopExecution(id)` leaves the stored execution record
unchanged and fails for every id without a pending `waitTill`, but the error
depends on what the preceding data-row load finds: an absent record fails with
`NotFound`; a record with a null `waitTill` whose data row is present and
decodable fails with `NotFound`; a record whose data row is missing fails with
`TypeError` instead, because the load precedes the `waitTill` check.  In each
case no status, `waitTill`, `stoppedAt` or data write occurs. -/
theorem c4_stop_failure_modes (db : DbState) (timers : List (Nat × Nat)) (id now : Nat) :
    (db.executions.find? (fun x => x.id == id) = none →
      (stopExecutionWT db timers id now).1.1 = db ∧
      (stopExecutionWT db timers id now).2 = .error .notFound) ∧
    (∀ e d g, db.executions.find? (fun x => x.id == id) = some e →
      e.waitTill = none →
      db.executionData.find? (fun x => x.executionId == id) = some d →
      decode d.data = .ok g →
      (stopExecutionWT db timers id now).1.1 = db ∧
      (stopExecutionWT db timers id now).2 = .error .notFound) ∧
    (∀ e, db.executions.find? (fun x => x.id == id) = some e →
      db.executionData.find? (fun x => x.executionId == id) = none →
      (stopExecutionWT db timers id now).1.1 = db ∧
      (stopExecutionWT db timers id now).2 = .error .typeError) := by
  refine ⟨?_, ?_, ?_⟩
  · intro he
    unfold stopExecutionWT
    rw [findSingle_unflat_none db id he]
    exact ⟨rfl, rfl⟩
  · intro e d g he hw hd hg
    unfold stopExecutionWT
    rw [findSingle_unflat_ok db id e d g he hd hg]
    simp [hw]
  · intro e he hd
    unfold stopExecutionWT
    rw [findSingle_unflat_nodata db id e he hd]
    exact ⟨rfl, rfl⟩

/-- A record with a null `waitTill` but an intact data row. -/
def execNullWait : ExecutionEntity :=
  { id := 4, workflowId := 10, mode := .manual, status := .success,
    startedAt := 5, stoppedAt := some 9, waitTill := none, finished := true }

/-- A store holding that record together with its data row. -/
def dbNullWait : DbState :=
  { executions := [execNullWait],
    executionData := [⟨4, encode smallGraph, wfSnapshot⟩],
    metadata := [] }

/-- Claim C4 (witness): the amended theorem applied to an unknown id on
`dbOne` and to the null-`waitTill` record of `dbNullWait`. -/
theorem c4_stop_failure_witness :
    dbOne.executions.find? (fun x => x.id == 99) = none ∧
    (stopExecutionWT dbOne [] 99 20).2 = .error StoreError.notFound ∧
    execNullWait.waitTill = none ∧
    (stopExecutionWT dbNullWait [] 4 20).2 = .error StoreError.notFound ∧
    (stopExecutionWT dbNullWait [] 4 20).1.1 = dbNullWait := by
  refine ⟨rfl, ?_, rfl, ?_, ?_⟩
  · exact ((c4_stop_failure_modes dbOne [] 99 20).1 rfl).2
  · exact ((c4_stop_failure_modes dbNullWait [] 4 20).2.1 execNullWait
      ⟨4, encode smallGraph, wfSnapshot⟩ smallGraph rfl rfl rfl rfl).2
  · exact ((c4_stop_failure_modes dbNullWait [] 4 20).2.1 execNullWait
      ⟨4, encode smallGraph, wfSnapshot⟩ smallGraph rfl rfl rfl rfl).1

/-! ## Claim C5 -/

/-- Claim C5 (counterexample): the original claim says a successful
`stopExecution` attaches a cancellation error into the STORED run-data graph
and persists via `updateExecution`.  In the code the error is written only
into the in-memory graph; persistence is a single Execution-table update
(lines 698-703, not the repository's `updateExistingExecution`) whose
flattened `data` has no column there.  Stopping the waiting execution 1 thus
succeeds with the claimed summary while leaving the stored `ExecutionData`
table unchanged: its payload still decodes to the original graph, whose root
object carries no error field. -/
theorem c5_stop_counterexample :
    (stopExecutionWT dbOne [] 1 20).1.1.executionData = dbOne.executionData ∧
    decode (encode smallGraph) = .ok smallGraph ∧
    ((objAt smallGraph.heap smallGraph.root).all (fun kv => kv.1 != "error")) = true ∧
    (stopExecutionWT dbOne [] 1 20).2 =
      .ok { mode := ExecMode.manual, startedAt := 5, stoppedAt := some 20,
            finished := false, status := ExecStatus.canceled } := by
  refine ⟨rfl, rfl, rfl, rfl⟩

/-- Claim C5 (amended): for an execution with a non-null `waitTill` whose data
row is present and decodable, `stopExecution` succeeds: it returns the summary
consisting of mode, startedAt, stoppedAt = now, finished and
status = canceled, and persists `status = canceled`, `waitTill = null`,
`stoppedAt = now` by a single update of the Execution table, leaving every
other execution untouched; the cancellation error is attached only to the
in-memory run-data graph — the stored `ExecutionData` and metadata tables are
unchanged — and the local timer for the id is disarmed. -/
theorem c5_stop_single_table_update (db : DbState) (timers : List (Nat × Nat))
    (id now : Nat) (e : ExecutionEntity) (w : Nat) (d : ExecutionDataRow) (g : Graph)
    (he : db.executions.find? (fun x => x.id == id) = some e)
    (hw : e.waitTill = some w)
    (hd : db.executionData.find? (fun x => x.executionId == id) = some d)
    (hg : decode d.data = .ok g) :
    (stopExecutionWT db timers id now).2 =
      .ok { mode := e.mode, startedAt := e.startedAt, stoppedAt := some now,
            finished := e.finished, status := .canceled } ∧
    ((stopExecutionWT db timers id now).1.1.executions.find? (fun x => x.id == id) =
      some (cancelRowOf now e)) ∧
    (cancelRowOf now e).status = .canceled ∧
    (cancelRowOf now e).waitTill = none ∧
    (cancelRowOf now e).stoppedAt = some now ∧
    (stopExecutionWT db timers id now).1.1.executionData = db.executionData ∧
    (stopExecutionWT db timers id now).1.1.metadata = db.metadata ∧
    (∀ e' ∈ db.executions, e'.id ≠ id →
      e' ∈ (stopExecutionWT db timers id now).1.1.executions) ∧
    (stopExecutionWT db timers id now).1.2 = timers.filter (fun t => t.1 != id) := by
  have hpe := List.find?_some he
  have hstop : stopExecutionWT db timers id now =
      ((⟨updateWhere db.executions (fun x => x.id == id) (fun _ => cancelRowOf now e),
         db.executionData, db.metadata⟩,
        timers.filter (fun t => t.1 != id)),
       .ok { mode := e.mode, startedAt := e.startedAt, stoppedAt := some now,
             finished := e.finished, status := .canceled }) := by
    unfold stopExecutionWT
    rw [findSingle_unflat_ok db id e d g he hd hg]
    simp only [hw]
  rw [hstop]
  refine ⟨rfl, ?_, rfl, rfl, rfl, rfl, rfl, ?_, rfl⟩
  · show (updateWhere db.executions (fun x => x.id == id)
        (fun _ => cancelRowOf now e)).find? (fun x => x.id == id) =
      some (cancelRowOf now e)
    rw [find?_updateWhere db.executions (fun x => x.id == id)
        (fun _ => cancelRowOf now e) (fun r _ => hpe), he]
    rfl
  · intro e' he' hne
    exact mem_updateWhere_of_neg he' (by simp [hne])

/-- Claim C5 (witness): the amended theorem applied to `dbOne`'s waiting
execution 1 (due at 50), stopped at time 20 with a timer armed. -/
theorem c5_stop_single_table_witness :
    dbOne.executions.find? (fun x => x.id == 1) = some execWaiting ∧
    execWaiting.waitTill = some 50 ∧
    (stopExecutionWT dbOne [(1, 30)] 1 20).2 =
      .ok { mode := ExecMode.manual, startedAt := 5, stoppedAt := some 20,
            finished := false, status := ExecStatus.canceled } ∧
    (stopExecutionWT dbOne [(1, 30)] 1 20).1.1.executionData = dbOne.executionData := by
  refine ⟨rfl, rfl, ?_, ?_⟩
  · exact (c5_stop_single_table_update dbOne [(1, 30)] 1 20 execWaiting 50
      ⟨1, encode smallGraph, wfSnapshot⟩ smallGraph rfl rfl rfl rfl).1
  · exact (c5_stop_single_table_update dbOne [(1, 30)] 1 20 execWaiting 50
      ⟨1, encode smallGraph, wfSnapshot⟩ smallGraph rfl rfl rfl rfl).2.2.2.2.2.1

/-! ## Claim C9: codec round trip -/

theorem traverse_cons (h : List FObj) (fuel : Nat) (a : Nat) (stack ord : List Nat) :
    codecTraverse h (fuel + 1) (a :: stack) ord =
      if a ∈ ord then codecTraverse h fuel stack ord
      else codecTraverse h fuel (fieldRefs (objAt h a) ++ stack) (ord ++ [a]) := rfl

/-- Remaining traversal work: pending stack entries plus the references of all
not-yet-visited addresses. -/
def pot (h : List FObj) (stack ord : List Nat) : Nat :=
  stack.length +
    ∑ a ∈ (Finset.range h.length).filter (fun a => a ∉ ord), (fieldRefs (objAt h a)).length

theorem sum_filter_visit (n : Nat) (ord : List Nat) (a : Nat) (f : Nat → Nat)
    (ha : a < n) (hmem : a ∉ ord) :
    ∑ x ∈ (Finset.range n).filter (fun x => x ∉ ord), f x =
      f a + ∑ x ∈ (Finset.range n).filter (fun x => x ∉ ord ++ [a]), f x := by
  have hset : (Finset.range n).filter (fun x => x ∉ ord ++ [a]) =
      ((Finset.range n).filter (fun x => x ∉ ord)).erase a := by
    ext x
    simp only [Finset.mem_filter, Finset.mem_erase, Finset.mem_range, List.mem_append,
      List.mem_singleton, not_or]
    tauto
  have hain : a ∈ (Finset.range n).filter (fun x => x ∉ ord) := by
    simp [Finset.mem_filter, Finset.mem_range, ha, hmem]
  rw [hset]
  exact (Finset.add_sum_erase _ f hain).symm

theorem sum_filter_visit_ge (n : Nat) (ord : List Nat) (a : Nat) (f : Nat → Nat)
    (ha : n ≤ a) :
    ∑ x ∈ (Finset.range n).filter (fun x => x ∉ ord ++ [a]), f x =
      ∑ x ∈ (Finset.range n).filter (fun x => x ∉ ord), f x := by
  have hset : ((Finset.range n).filter (fun x => x ∉ ord ++ [a]) : Finset Nat) =
      (Finset.range n).filter (fun x => x ∉ ord) := by
    apply Finset.filter_congr
    intro x hx
    have hxn : x < n := Finset.mem_range.1 hx
    have hxa : x ≠ a := by omega
    simp [List.mem_append, hxa]
  rw [hset]

theorem pot_visit (h : List FObj) (a : Nat) (stack ord : List Nat) (hmem : a ∉ ord) :
    pot h (fieldRefs (objAt h a) ++ stack) (ord ++ [a]) < pot h (a :: stack) ord := by
  by_cases ha : a < h.length
  · have hs := sum_filter_visit h.length ord a
      (fun x => (fieldRefs (objAt h x)).length) ha hmem
    simp only at hs
    simp only [pot, List.length_append, List.length_cons]
    rw [hs]
    omega
  · have hobj : objAt h a = [] := by
      unfold objAt
      exact List.getD_eq_default h [] (Nat.le_of_not_lt ha)
    have hs := sum_filter_visit_ge h.length ord a
      (fun x => (fieldRefs (objAt h x)).length) (Nat.le_of_not_lt ha)
    simp only at hs
    simp only [pot, List.length_append, List.length_cons, hobj]
    rw [hs]
    simp only [fieldRefs, List.filterMap_nil, List.length_nil]
    omega

theorem objAt_mem (h : List FObj) (a : Nat) (ha : a < h.length) : objAt h a ∈ h := by
  unfold objAt
  rw [List.getD_eq_getElem h [] ha]
  exact List.getElem_mem ha

/-- The traversal, run with enough fuel from a consistent intermediate state,
ends with a duplicate-free visit order that extends the accumulated order,
absorbs the whole worklist, stays inside the heap and is closed under field
references. -/
theorem traverse_post (h : List FObj)
    (hWF : ∀ o ∈ h, ∀ b ∈ fieldRefs o, b < h.length) :
    ∀ fuel stack ord,
      pot h stack ord ≤ fuel →
      ord.Nodup →
      (∀ a ∈ ord, a < h.length) →
      (∀ a ∈ stack, a < h.length) →
      (∀ a ∈ ord, ∀ b ∈ fieldRefs (objAt h a), b ∈ ord ∨ b ∈ stack) →
      (∃ t, codecTraverse h fuel stack ord = ord ++ t) ∧
      (∀ a ∈ stack, a ∈ codecTraverse h fuel stack ord) ∧
      (codecTraverse h fuel stack ord).Nodup ∧
      (∀ a ∈ codecTraverse h fuel stack ord, a < h.length) ∧
      (∀ a ∈ codecTraverse h fuel stack ord, ∀ b ∈ fieldRefs (objAt h a),
        b ∈ codecTraverse h fuel stack ord) := by
  intro fuel
  induction fuel with
  | zero =>
    intro stack ord hpot hnd hordlt hstacklt hclo
    have hlen : stack.length = 0 := by
      simp only [pot] at hpot
      omega
    have hstack : stack = [] := List.length_eq_zero.1 hlen
    subst hstack
    refine ⟨⟨[], by simp [codecTraverse]⟩, by simp, hnd, hordlt, ?_⟩
    intro a ha b hb
    rcases hclo a ha b hb with hl | hr
    · exact hl
    · cases hr
  | succ n ih =>
    intro stack ord hpot hnd hordlt hstacklt hclo
    cases stack with
    | nil =>
      refine ⟨⟨[], by simp [codecTraverse]⟩, by simp, hnd, hordlt, ?_⟩
      intro a ha b hb
      rcases hclo a ha b hb with hl | hr
      · exact hl
      · cases hr
    | cons a stack' =>
      rw [traverse_cons]
      by_cases hmem : a ∈ ord
      · rw [if_pos hmem]
        have hpot' : pot h stack' ord ≤ n := by
          have : pot h (a :: stack') ord = pot h stack' ord + 1 := by
            simp [pot]
            omega
          omega
        obtain ⟨⟨t, ht⟩, hsm, hndR, hltR, hcloR⟩ := ih stack' ord hpot' hnd hordlt
          (fun x hx => hstacklt x (List.mem_cons_of_mem a hx))
          (by
            intro x hx b hb
            rcases hclo x hx b hb with hl | hr
            · exact Or.inl hl
            · rcases List.mem_cons.1 hr with hba | hbs
              · exact Or.inl (hba ▸ hmem)
              · exact Or.inr hbs)
        refine ⟨⟨t, ht⟩, ?_, hndR, hltR, hcloR⟩
        intro x hx
        rcases List.mem_cons.1 hx with hxa | hxs
        · subst hxa
          rw [ht]
          exact List.mem_append_left t hmem
        · exact hsm x hxs
      · rw [if_neg hmem]
        have halt : a < h.length := hstacklt a (List.mem_cons_self a stack')
        have hpot' : pot h (fieldRefs (objAt h a) ++ stack') (ord ++ [a]) ≤ n := by
          have := pot_visit h a stack' ord hmem
          omega
        have hnd' : (ord ++ [a]).Nodup := by
          simp [List.nodup_append, hnd, hmem]
        have hordlt' : ∀ x ∈ ord ++ [a], x < h.length := by
          intro x hx
          rcases List.mem_append.1 hx with hl | hr
          · exact hordlt x hl
          · rw [List.mem_singleton.1 hr]
            exact halt
        have hstacklt' : ∀ x ∈ fieldRefs (objAt h a) ++ stack', x < h.length := by
          intro x hx
          rcases List.mem_append.1 hx with hl | hr
          · exact hWF (objAt h a) (objAt_mem h a halt) x hl
          · exact hstacklt x (List.mem_cons_of_mem a hr)
        have hclo' : ∀ x ∈ ord ++ [a], ∀ b ∈ fieldRefs (objAt h x),
            b ∈ ord ++ [a] ∨ b ∈ fieldRefs (objAt h a) ++ stack' := by
          intro x hx b hb
          rcases List.mem_append.1 hx with hl | hr
          · rcases hclo x hl b hb with h1 | h2
            · exact Or.inl (List.mem_append_left [a] h1)
            · rcases List.mem_cons.1 h2 with hba | hbs
              · exact Or.inl (List.mem_append_right ord (by simp [hba]))
              · exact Or.inr (List.mem_append_right _ hbs)
          · have hxa : x = a := List.mem_singleton.1 hr
            subst hxa
            exact Or.inr (List.mem_append_left stack' hb)
        obtain ⟨⟨t, ht⟩, hsm, hndR, hltR, hcloR⟩ :=
          ih (fieldRefs (objAt h a) ++ stack') (ord ++ [a]) hpot' hnd' hordlt' hstacklt' hclo'
        refine ⟨⟨[a] ++ t, by rw [ht, List.append_assoc]⟩, ?_, hndR, hltR, hcloR⟩
        intro x hx
        rcases List.mem_cons.1 hx with hxa | hxs
        · subst hxa
          rw [ht]
          exact List.mem_append_left t (List.mem_append_right ord (by simp))
        · exact hsm x (List.mem_append_right _ hxs)

theorem heapWF_prop {h : List FObj} (hWF : heapWF h = true) :
    ∀ o ∈ h, ∀ b ∈ fieldRefs o, b < h.length := by
  intro o ho b hb
  have h1 := List.all_eq_true.1 hWF o ho
  have h2 := List.all_eq_true.1 h1 b hb
  exact of_decide_eq_true h2

theorem pot_start (h : List FObj) (root : Nat) (hroot : root < h.length) :
    pot h (fieldRefs (objAt h root)) [root] + 1 = travFuel h := by
  have h0 : ((Finset.range h.length).filter (fun x => x ∉ ([] : List Nat)) : Finset Nat) =
      Finset.range h.length := by
    apply Finset.filter_true_of_mem
    intro x _
    exact List.not_mem_nil x
  have hs := sum_filter_visit h.length [] root
    (fun x => (fieldRefs (objAt h x)).length) hroot (List.not_mem_nil root)
  rw [h0] at hs
  simp only [List.nil_append] at hs
  simp only [pot, travFuel, List.length_singleton]
  omega

/-- The first-visit order of a well-formed graph starts at the root, is
duplicate-free, stays inside the heap, and is closed under field
references. -/
theorem visitOrder_spec (g : Graph) (hWF : heapWF g.heap = true)
    (hroot : g.root < g.heap.length) :
    (∃ t, visitOrder g = g.root :: t) ∧
    (visitOrder g).Nodup ∧
    (∀ a ∈ visitOrder g, a < g.heap.length) ∧
    (∀ a ∈ visitOrder g, ∀ b ∈ fieldRefs (objAt g.heap a), b ∈ visitOrder g) := by
  have hW := heapWF_prop hWF
  have hfuel : travFuel g.heap = (∑ a ∈ Finset.range g.heap.length,
      (fieldRefs (objAt g.heap a)).length) + 1 := rfl
  have hstep : visitOrder g = codecTraverse g.heap
      (∑ a ∈ Finset.range g.heap.length, (fieldRefs (objAt g.heap a)).length)
      (fieldRefs (objAt g.heap g.root)) [g.root] := by
    rw [visitOrder, hfuel, traverse_cons, if_neg (List.not_mem_nil g.root)]
    simp only [List.append_nil, List.nil_append]
  have hpot : pot g.heap (fieldRefs (objAt g.heap g.root)) [g.root] ≤
      ∑ a ∈ Finset.range g.heap.length, (fieldRefs (objAt g.heap a)).length := by
    have hp := pot_start g.heap g.root hroot
    rw [hfuel] at hp
    omega
  obtain ⟨⟨t, ht⟩, hsm, hndR, hltR, hcloR⟩ := traverse_post g.heap hW
    (∑ a ∈ Finset.range g.heap.length, (fieldRefs (objAt g.heap a)).length)
    (fieldRefs (objAt g.heap g.root)) [g.root] hpot
    (List.nodup_singleton g.root)
    (by
      intro a ha
      rw [List.mem_singleton.1 ha]
      exact hroot)
    (fun b hb => hW (objAt g.heap g.root) (objAt_mem _ _ hroot) b hb)
    (by
      intro x hx b hb
      have hxr : x = g.root := List.mem_singleton.1 hx
      subst hxr
      exact Or.inr hb)
  rw [← hstep] at ht hsm hndR hltR hcloR
  exact ⟨⟨t, by simpa using ht⟩, hndR, hltR, hcloR⟩

theorem encode_length (g : Graph) : (encode g).length = (visitOrder g).length := by
  simp [encode]

theorem encode_slots_lt (g : Graph) (hWF : heapWF g.heap = true)
    (hroot : g.root < g.heap.length) :
    ∀ o ∈ encode g, ∀ kv ∈ o, ∀ i, kv.2 = EVal.slot i → i < (encode g).length := by
  obtain ⟨-, -, -, hclo⟩ := visitOrder_spec g hWF hroot
  intro o ho kv hkv i hslot
  rw [encode_length]
  obtain ⟨a, ha, rfl⟩ := List.mem_map.1 ho
  simp only [encObj] at hkv
  obtain ⟨kv0, hkv0, rfl⟩ := List.mem_map.1 hkv
  cases hv : kv0.2 with
  | atom s =>
    rw [hv] at hslot
    simp [encVal] at hslot
  | ref b =>
    rw [hv] at hslot
    simp only [encVal] at hslot
    injection hslot with hib
    rw [← hib]
    have hbf : b ∈ fieldRefs (objAt g.heap a) := by
      unfold fieldRefs
      apply List.mem_filterMap.2
      refine ⟨kv0, hkv0, ?_⟩
      rw [hv]
    exact List.indexOf_lt_length.2 (hclo a ha b hbf)

theorem patchObj_ok (n : Nat) (o : EObj)
    (hb : ∀ kv ∈ o, ∀ i, kv.2 = EVal.slot i → i < n) :
    patchObj n o = .ok (decObjTotal o) := by
  induction o with
  | nil => rfl
  | cons kv rest ih =>
    have hv : decodeVal n kv.2 =
        .ok (match kv.2 with | .atom s => FVal.atom s | .slot i => FVal.ref i) := by
      cases hkv : kv.2 with
      | atom s => rfl
      | slot i =>
        have hlt := hb kv (List.mem_cons_self kv rest) i hkv
        simp [decodeVal, hlt]
    have ih2 := ih (fun kv' h i hs => hb kv' (List.mem_cons_of_mem kv h) i hs)
    simp only [patchObj, hv, ih2, decObjTotal, List.map_cons]

theorem patchHeap_ok (n : Nat) (l : List EObj)
    (hb : ∀ o ∈ l, ∀ kv ∈ o, ∀ i, kv.2 = EVal.slot i → i < n) :
    patchHeap n l = .ok (l.map decObjTotal) := by
  induction l with
  | nil => rfl
  | cons o rest ih =>
    have ho := patchObj_ok n o (hb o (List.mem_cons_self o rest))
    have ih2 := ih (fun o' h kv hkv i hs => hb o' (List.mem_cons_of_mem o h) kv hkv i hs)
    simp only [patchHeap, ho, ih2, List.map_cons]

theorem decode_encode (g : Graph) (hWF : heapWF g.heap = true)
    (hroot : g.root < g.heap.length) :
    decode (encode g) = .ok ⟨decodedHeap g, 0⟩ := by
  unfold decode
  rw [patchHeap_ok (encode g).length (encode g) (encode_slots_lt g hWF hroot)]
  rfl

/-- Translation of one field value along the slot assignment. -/
def transVal (ord : List Nat) : FVal → FVal
  | .atom s => .atom s
  | .ref b => .ref (ord.indexOf b)

theorem getD_map_of_lt {α β : Type} (l : List α) (f : α → β) (i : Nat) (d : β) (d' : α)
    (h : i < l.length) : (l.map f).getD i d = f (l.getD i d') := by
  rw [List.getD_eq_getElem _ _ (by simpa using h), List.getD_eq_getElem _ _ h,
    List.getElem_map]

theorem decodedHeap_objAt (g : Graph) {a : Nat} (ha : a ∈ visitOrder g) :
    objAt (decodedHeap g) ((visitOrder g).indexOf a) =
      (objAt g.heap a).map (fun kv => (kv.1, transVal (visitOrder g) kv.2)) := by
  have hidx : (visitOrder g).indexOf a < (visitOrder g).length :=
    List.indexOf_lt_length.2 ha
  unfold objAt
  rw [show decodedHeap g = (encode g).map decObjTotal from rfl]
  rw [getD_map_of_lt (encode g) decObjTotal ((visitOrder g).indexOf a) [] []
    (by rw [encode_length]; exact hidx)]
  have h2 : (encode g).getD ((visitOrder g).indexOf a) [] =
      encObj g (visitOrder g) ((visitOrder g).getD ((visitOrder g).indexOf a) 0) := by
    unfold encode
    exact getD_map_of_lt _ _ _ _ 0 hidx
  have h3 : (visitOrder g).getD ((visitOrder g).indexOf a) 0 = a := by
    rw [List.getD_eq_getElem _ _ hidx]
    exact List.getElem_indexOf hidx
  rw [h2, h3]
  unfold decObjTotal encObj objAt
  rw [List.map_map]
  apply List.map_congr_left
  intro kv _
  cases hkv : kv.2 with
  | atom s => simp [Function.comp, encVal, transVal, hkv]
  | ref b => simp [Function.comp, encVal, transVal, hkv]

/-- Claim C9: for every well-formed run-data graph — including graphs with a
cycle (`A.next = B; B.next = A`) and sub-objects referenced from several
places — `decode (encode g)` terminates successfully (no `CorruptPayload`, no
infinite recursion: the traversal visits every distinct object exactly once),
and the decoded heap is the reachable part of `g` relabelled by the injective
slot assignment `(visitOrder g).indexOf`: the root decodes to slot 0, no
object is duplicated (the visit order is duplicate-free and the slot map is
injective), every atom field is preserved, and every reference field to
address `b` decodes to a reference to the single slot of `b` — so two fields
that referenced the same object still reference the same decoded object
(reference identity), and cycles are preserved. -/
theorem c9_codec_roundtrip (g : Graph) (hWF : heapWF g.heap = true)
    (hroot : g.root < g.heap.length) :
    decode (encode g) = .ok ⟨decodedHeap g, 0⟩ ∧
    (visitOrder g).Nodup ∧
    g.root ∈ visitOrder g ∧
    (visitOrder g).indexOf g.root = 0 ∧
    (∀ a b, a ∈ visitOrder g → b ∈ visitOrder g →
      (visitOrder g).indexOf a = (visitOrder g).indexOf b → a = b) ∧
    (∀ a ∈ visitOrder g, ∀ k s, (k, FVal.atom s) ∈ objAt g.heap a →
      (k, FVal.atom s) ∈ objAt (decodedHeap g) ((visitOrder g).indexOf a)) ∧
    (∀ a ∈ visitOrder g, ∀ k b, (k, FVal.ref b) ∈ objAt g.heap a →
      b ∈ visitOrder g ∧
      (k, FVal.ref ((visitOrder g).indexOf b)) ∈
        objAt (decodedHeap g) ((visitOrder g).indexOf a)) := by
  obtain ⟨⟨t, ht⟩, hnd, hlt, hclo⟩ := visitOrder_spec g hWF hroot
  have hrootmem : g.root ∈ visitOrder g := by
    rw [ht]
    exact List.mem_cons_self _ _
  have hroot0 : (visitOrder g).indexOf g.root = 0 := by
    rw [ht]
    exact List.indexOf_cons_self _ _
  refine ⟨decode_encode g hWF hroot, hnd, hrootmem, hroot0, ?_, ?_, ?_⟩
  · intro a b hamem hbmem heq
    have ha2 := List.indexOf_lt_length.2 hamem
    have hb2 := List.indexOf_lt_length.2 hbmem
    have h1 := List.getElem_indexOf ha2
    have h2 := List.getElem_indexOf hb2
    rw [← h1, ← h2]
    congr 1
  · intro a hamem k s hks
    rw [decodedHeap_objAt g hamem]
    exact List.mem_map.2 ⟨(k, FVal.atom s), hks, rfl⟩
  · intro a hamem k b hkb
    have hbf : b ∈ fieldRefs (objAt g.heap a) := by
      unfold fieldRefs
      exact List.mem_filterMap.2 ⟨(k, FVal.ref b), hkb, rfl⟩
    refine ⟨hclo a hamem b hbf, ?_⟩
    rw [decodedHeap_objAt g hamem]
    exact List.mem_map.2 ⟨(k, FVal.ref b), hkb, rfl⟩

/-- Claim C9 (witness): the round-trip theorem applied to the concrete cyclic,
reference-sharing graph (`A.next = B; B.next = A`, with a shared third
object): decode of encode succeeds, and A's `next` field decodes to the slot
of B. -/
theorem c9_codec_roundtrip_witness :
    heapWF cycleGraph.heap = true ∧
    cycleGraph.root < cycleGraph.heap.length ∧
    decode (encode cycleGraph) = .ok ⟨decodedHeap cycleGraph, 0⟩ ∧
    ("next", FVal.ref ((visitOrder cycleGraph).indexOf 1)) ∈
      objAt (decodedHeap cycleGraph) ((visitOrder cycleGraph).indexOf 0) := by
  refine ⟨rfl, by decide, ?_, ?_⟩
  · exact (c9_codec_roundtrip cycleGraph rfl (by decide)).1
  · exact ((c9_codec_roundtrip cycleGraph rfl (by decide)).2.2.2.2.2.2 0 (by decide)
      "next" 1 (by decide)).2
